import Mathlib

/-!
Verification of the reversible short-code codec in `py/revcode.py`.

The codec maps a pair of bounded integers (a store identifier and a
sequence number) to a fixed-length string over a restricted alphabet and
back.  Python integers are modelled as `Nat`/`Int`.  The digit formula
`int(math.floor(num / NUM_CHARS ** power))` passes its quotient through
an IEEE binary64 double (under Python 2 the integer quotient is
converted to a double by `math.floor`; under Python 3 `/` is double
true division), so it is exact floor division only while the quotient
stays below `2 ^ 53`: `baseDigits`/`encode` give the exact reading,
`baseDigitsFloat`/`encodeFloat` model the binary64 rounding, and
`encodeFloat_eq_encode` proves the two agree for `num < 2 ^ 53` (which
covers the whole facade domain, `NUM_CHARS ^ SEQUENCE_SIZE < 2 ^ 53`).
Python exceptions are modelled by `Except PyErr`; strings are modelled
as `List Char`.
-/

namespace Revcode

/-- `ALPHABET = 'BCDEFGHJKMNPRSTVWXY23456789'` from the source. -/
def ALPHABET : List Char := "BCDEFGHJKMNPRSTVWXY23456789".toList

/-- `NUM_CHARS = len(ALPHABET)` from the source. -/
def NUM_CHARS : Nat := ALPHABET.length

/-- `STORE_SIZE = 3` from the source. -/
def STORE_SIZE : Nat := 3

/-- `SHIFT_INDEX = 3` from the source. -/
def SHIFT_INDEX : Nat := 3

/-- `SEQUENCE_SIZE = 8` from the source. -/
def SEQUENCE_SIZE : Nat := 8

/-- `MOD_BY = 23` from the source. -/
def MOD_BY : Nat := 23

/-- The Python exceptions the decoding path can raise: `enc[SHIFT_INDEX]`
on a too-short string raises `IndexError`, `ALPHABET.index(c)` on a
character not in the alphabet raises `ValueError`, and a dictionary
lookup of an absent key raises `KeyError`. -/
inductive PyErr where
  | indexError
  | valueError
  | keyError
deriving DecidableEq

/-- Python's `str.index`: the first position of `c` in the list, `none`
modelling the `ValueError` when `c` is absent. -/
def index_of (c : Char) : List Char → Option Nat
  | [] => none
  | a :: rest => if a = c then some 0 else (index_of c rest).map (· + 1)

/-- The body of the `while` loop of `wrap_to_positive`, indexed by fuel.
The loop `while wrap < 0 and mod_by > 0: wrap += mod_by` adds `mod_by`
(which is at least 1 whenever the loop runs) until `wrap` is
non-negative, so `(-wrap).toNat` steps always suffice; `wrapLoop` below
supplies exactly that fuel, and `wrapLoop_step` certifies that the
result satisfies the loop's defining equation. -/
def wrapLoopAux : Nat → Int → Int → Int
  | 0, wrap, _ => wrap
  | fuel + 1, wrap, mod_by =>
      if wrap < 0 ∧ 0 < mod_by then wrapLoopAux fuel (wrap + mod_by) mod_by else wrap

/-- The `while` loop of `wrap_to_positive`, run to completion. -/
def wrapLoop (wrap mod_by : Int) : Int := wrapLoopAux (-wrap).toNat wrap mod_by

/-- `wrap_to_positive(num_to_wrap, mod_by)` from the source: run the
loop, then `return wrap % mod_by`.  For `mod_by > 0` (the only way the
source calls it) Python's `%` agrees with `Int.emod`: both return the
representative in `[0, mod_by)`. -/
def wrap_to_positive (num_to_wrap mod_by : Int) : Int :=
  wrapLoop num_to_wrap mod_by % mod_by

/-- The realized generator of `encode`:
`digits = ((int(math.floor(num / NUM_CHARS ** power)) % NUM_CHARS + shift + power) % NUM_CHARS for power in range(0, pad))`,
under the exact-integer reading of the division.  This reading is
faithful to the program exactly while every quotient stays below
`2 ^ 53`, where the binary64 rounding of `baseDigitsFloat` is the
identity (`baseDigitsFloat_eq_baseDigits`); `baseDigitsFloat` below is
the rounded reading. -/
def baseDigits (num pad shift : Nat) : List Nat :=
  (List.range pad).map
    (fun power => ((num / NUM_CHARS ^ power) % NUM_CHARS + shift + power) % NUM_CHARS)

/-- `encode(num, pad, shift)` from the source: prepend
`ALPHABET[base_digits[(shift + i) % num_base_digits]]` to `constructed`
for `i in range(0, num_base_digits)`.  All list indices are in range
(each base digit is `< NUM_CHARS` and each shifted index is
`< num_base_digits`), so the `getD` defaults are never used. -/
def encode (num pad shift : Nat) : List Char :=
  let base_digits := baseDigits num pad shift
  let num_base_digits := base_digits.length
  (List.range num_base_digits).foldl
    (fun constructed i =>
      ALPHABET.getD (base_digits.getD ((shift + i) % num_base_digits) 0) ' ' :: constructed)
    []

/-- `encode_store_and_sequence(store, sequence)` from the source:
`shift = sequence % MOD_BY + 1` and the code is the concatenation
`encode(store, STORE_SIZE, shift) + ALPHABET[shift] + encode(sequence, SEQUENCE_SIZE, shift)`. -/
def encode_store_and_sequence (store sequence : Nat) : List Char :=
  let shift := sequence % MOD_BY + 1
  encode store STORE_SIZE shift ++
    ALPHABET.getD shift ' ' :: encode sequence SEQUENCE_SIZE shift

/-- Floor of the base-2 logarithm, by structural recursion on a fuel
argument that always suffices (the value at least halves each step, so
`n` steps are more than enough for input `n`). -/
def log2Aux : Nat → Nat → Nat
  | 0, _ => 0
  | fuel + 1, n => if n ≤ 1 then 0 else log2Aux fuel (n / 2) + 1

def log2floor (n : Nat) : Nat := log2Aux n n

/-- The value of the IEEE-754 binary64 double nearest to `n` (round to
nearest, ties to even), as a natural number: exact below `2 ^ 53`,
rounded to 53 significant bits above.  Valid below the double overflow
threshold `2 ^ 1024`; every value reached in this development is far
below that. -/
def roundFloat (n : Nat) : Nat :=
  if n < 2 ^ 53 then n
  else
    let e := log2floor n - 52
    let q := n / 2 ^ e
    let r := n % 2 ^ e
    if 2 * r < 2 ^ e then q * 2 ^ e
    else if 2 ^ e < 2 * r then (q + 1) * 2 ^ e
    else (if q % 2 = 0 then q else q + 1) * 2 ^ e

/-- The digit generator of `encode` under the floating-point reading of
`int(math.floor(num / NUM_CHARS ** power))`: the integer quotient
passes through an IEEE binary64 (under Python 2, `/` on ints is floor
division and `math.floor` converts the result to a double; under
Python 3, `/` is double true division — the two readings agree whenever
the exact quotient is below `2 ^ 53`, and at the power-0 division by 1
used by the counterexamples).  `baseDigits` is the exact special case,
equal to this whenever `num < 2 ^ 53`. -/
def baseDigitsFloat (num pad shift : Nat) : List Nat :=
  (List.range pad).map
    (fun power => (roundFloat (num / NUM_CHARS ^ power) % NUM_CHARS + shift + power) % NUM_CHARS)

/-- `encode(num, pad, shift)` under the floating-point reading of the
digit formula: identical to `encode` except that each digit quotient is
rounded through a binary64 (see `baseDigitsFloat`). -/
def encodeFloat (num pad shift : Nat) : List Char :=
  let base_digits := baseDigitsFloat num pad shift
  let num_base_digits := base_digits.length
  (List.range num_base_digits).foldl
    (fun constructed i =>
      ALPHABET.getD (base_digits.getD ((shift + i) % num_base_digits) 0) ' ' :: constructed)
    []

/-- The dictionary `repositioned_chars` built by the first loop of
`decode`: `repositioned_chars[wrap_to_positive(i - shift, l)] = shifted_string[i]`
for `i in range(0, l)`, modelled as a partial map `Nat → Option Char`
updated in loop order (later writes win, as for a Python dict). -/
def repositionedChars (shifted_string : List Char) (shift : Nat) : Nat → Option Char :=
  (List.range shifted_string.length).foldl
    (fun repositioned (i : Nat) =>
      Function.update repositioned
        (wrap_to_positive ((i : Int) - (shift : Int)) (shifted_string.length : Int)).toNat
        (some (shifted_string.getD i ' ')))
    (fun _ => none)

/-- `num_repo_chars = len(repositioned_chars)`: the number of distinct
keys written by the first loop of `decode`. -/
def numRepoChars (shifted_string : List Char) (shift : Nat) : Nat :=
  ((List.range shifted_string.length).map
    (fun (i : Nat) =>
      (wrap_to_positive ((i : Int) - (shift : Int)) (shifted_string.length : Int)).toNat)).dedup.length

/-- One iteration of the second loop of `decode`:
`some_digit = wrap_to_positive(ALPHABET.index(repositioned_chars[i]) - shift - power, NUM_CHARS)`
and `total += some_digit * NUM_CHARS ** power` with
`power = num_repo_chars - i - 1`; a missing key raises `KeyError` and a
character outside the alphabet raises `ValueError`, and a raised
exception aborts the remaining iterations. -/
def decodeStep (repositioned : Nat → Option Char) (shift n : Nat)
    (acc : Except PyErr Int) (i : Nat) : Except PyErr Int :=
  match acc with
  | Except.error e => Except.error e
  | Except.ok total =>
    match repositioned i with
    | none => Except.error PyErr.keyError
    | some c =>
      match index_of c ALPHABET with
      | none => Except.error PyErr.valueError
      | some ci =>
        Except.ok (total +
          wrap_to_positive ((ci : Int) - (shift : Int) - ((n - i - 1 : Nat) : Int))
              (NUM_CHARS : Int) *
            (NUM_CHARS : Int) ^ (n - i - 1))

/-- `decode(shifted_string, shift)` from the source: build
`repositioned_chars`, then `for i in reversed(range(0, num_repo_chars))`
accumulate `total`; `return int(total)` is the identity on a Python int. -/
def decode (shifted_string : List Char) (shift : Nat) : Except PyErr Int :=
  let repositioned := repositionedChars shifted_string shift
  let n := numRepoChars shifted_string shift
  (List.range n).reverse.foldl (decodeStep repositioned shift n) (Except.ok 0)

/-- `decode_to_store_and_sequence(enc)` from the source:
`c = enc[SHIFT_INDEX]` (IndexError when the string is shorter),
`shift = ALPHABET.index(c)` (ValueError when `c` is not in the
alphabet), then decode `enc[0:STORE_SIZE]` and `enc[SHIFT_INDEX+1:]`. -/
def decode_to_store_and_sequence (enc : List Char) : Except PyErr (Int × Int) :=
  match enc.get? SHIFT_INDEX with
  | none => Except.error PyErr.indexError
  | some c =>
    match index_of c ALPHABET with
    | none => Except.error PyErr.valueError
    | some shift =>
      match decode (enc.take STORE_SIZE) shift with
      | Except.error e => Except.error e
      | Except.ok store =>
        match decode (enc.drop (SHIFT_INDEX + 1)) shift with
        | Except.error e => Except.error e
        | Except.ok sequence => Except.ok (store, sequence)

/-! ### Facts about the configuration -/

lemma NUM_CHARS_eq : NUM_CHARS = 27 := rfl

lemma NUM_CHARS_pos : 0 < NUM_CHARS := by decide

/-! ### Facts about `wrap_to_positive` -/

lemma wrapLoopAux_emod (fuel : Nat) :
    ∀ (w m : Int), wrapLoopAux fuel w m % m = w % m := by
  induction fuel with
  | zero => intro w m; rfl
  | succ f ih =>
    intro w m
    simp only [wrapLoopAux]
    split
    · rw [ih]
      have h : (w + 1 * m) % m = w % m := Int.add_mul_emod_self
      simp only [one_mul] at h
      exact h
    · rfl

/-- The model of `wrap_to_positive` computes the euclidean remainder. -/
lemma wrap_to_positive_eq_emod (w m : Int) : wrap_to_positive w m = w % m := by
  unfold wrap_to_positive wrapLoop
  rw [wrapLoopAux_emod]

lemma wrapLoopAux_of_nonneg {w : Int} (h : 0 ≤ w) (m : Int) :
    ∀ fuel, wrapLoopAux fuel w m = w := by
  intro fuel
  cases fuel with
  | zero => rfl
  | succ f =>
    simp only [wrapLoopAux]
    rw [if_neg]
    rintro ⟨h1, _⟩
    omega

lemma wrapLoopAux_fuel_invariant :
    ∀ (f1 f2 : Nat) (w m : Int), 0 < m →
      (-w).toNat ≤ f1 → (-w).toNat ≤ f2 →
      wrapLoopAux f1 w m = wrapLoopAux f2 w m := by
  intro f1
  induction f1 with
  | zero =>
    intro f2 w m _ h1 _
    have hw : 0 ≤ w := by omega
    rw [wrapLoopAux_of_nonneg hw, wrapLoopAux_of_nonneg hw]
  | succ f ih =>
    intro f2 w m hm h1 h2
    by_cases hw : w < 0
    · cases f2 with
      | zero => omega
      | succ g =>
        simp only [wrapLoopAux, if_pos (And.intro hw hm)]
        exact ih g (w + m) m hm (by omega) (by omega)
    · have hw' : 0 ≤ w := by omega
      rw [wrapLoopAux_of_nonneg hw', wrapLoopAux_of_nonneg hw']

/-- Fidelity certificate: the fuel-indexed model of the `while` loop
satisfies the loop's defining equation. -/
lemma wrapLoop_step (w m : Int) (hm : 0 < m) :
    wrapLoop w m = if w < 0 then wrapLoop (w + m) m else w := by
  by_cases hw : w < 0
  · rw [if_pos hw]
    unfold wrapLoop
    cases hf : (-w).toNat with
    | zero => omega
    | succ k =>
      simp only [wrapLoopAux, if_pos (And.intro hw hm)]
      exact wrapLoopAux_fuel_invariant k (-(w + m)).toNat (w + m) m hm (by omega) le_rfl
  · rw [if_neg hw]
    exact wrapLoopAux_of_nonneg (by omega) m _

/-! ### Facts about `index_of` -/

lemma index_of_eq_none_iff (c : Char) :
    ∀ (l : List Char), index_of c l = none ↔ c ∉ l := by
  intro l
  induction l with
  | nil => simp [index_of]
  | cons a rest ih =>
    simp only [index_of, List.mem_cons]
    by_cases h : a = c
    · simp [h]
    · simp only [if_neg h, Option.map_eq_none', ih]
      constructor
      · intro hn hor
        rcases hor with hor | hor
        · exact h hor.symm
        · exact hn hor
      · intro hn
        exact fun hm => hn (Or.inr hm)

lemma index_of_isSome_of_mem {c : Char} {l : List Char} (h : c ∈ l) :
    ∃ d, index_of c l = some d := by
  cases hi : index_of c l with
  | none => exact absurd h ((index_of_eq_none_iff c l).mp hi)
  | some d => exact ⟨d, rfl⟩

/-- Looking up the symbol at a valid position recovers the position:
the reference alphabet has no duplicate symbols. -/
lemma index_of_alpha_getD :
    ∀ d, d < NUM_CHARS → index_of (ALPHABET.getD d ' ') ALPHABET = some d := by decide

lemma alpha_getD_injective :
    ∀ a, a < NUM_CHARS → ∀ b, b < NUM_CHARS →
      ALPHABET.getD a ' ' = ALPHABET.getD b ' ' → a = b := by decide

lemma alpha_getD_mem : ∀ d, d < NUM_CHARS → ALPHABET.getD d ' ' ∈ ALPHABET := by decide

/-! ### Facts about `encode` -/

lemma baseDigits_length (num pad shift : Nat) : (baseDigits num pad shift).length = pad := by
  simp [baseDigits]

lemma baseDigits_getD (num pad shift : Nat) {p : Nat} (hp : p < pad) :
    (baseDigits num pad shift).getD p 0 =
      ((num / NUM_CHARS ^ p) % NUM_CHARS + shift + p) % NUM_CHARS := by
  have hlen : p < (baseDigits num pad shift).length := by rw [baseDigits_length]; exact hp
  rw [List.getD_eq_getElem _ _ hlen]
  simp [baseDigits]

lemma baseDigits_getD_lt (num pad shift p : Nat) :
    (baseDigits num pad shift).getD p 0 < NUM_CHARS := by
  by_cases hp : p < pad
  · rw [baseDigits_getD num pad shift hp]
    exact Nat.mod_lt _ NUM_CHARS_pos
  · rw [List.getD_eq_default]
    · exact NUM_CHARS_pos
    · rw [baseDigits_length]; omega

lemma foldl_cons_eq_reverse_map {α : Type} (f : Nat → α) :
    ∀ (L : List Nat) (acc : List α),
      L.foldl (fun constructed i => f i :: constructed) acc = (L.map f).reverse ++ acc := by
  intro L
  induction L with
  | nil => intro acc; rfl
  | cons a L ih =>
    intro acc
    rw [List.foldl_cons, ih (f a :: acc)]
    simp

/-- The prepend-in-a-loop construction of `encode`, written as a map. -/
lemma encode_eq_reverse_map (num pad shift : Nat) :
    encode num pad shift =
      ((List.range pad).map
        (fun i => ALPHABET.getD ((baseDigits num pad shift).getD ((shift + i) % pad) 0) ' ')).reverse := by
  simp only [encode, baseDigits_length]
  rw [foldl_cons_eq_reverse_map, List.append_nil]

lemma encode_length (num pad shift : Nat) : (encode num pad shift).length = pad := by
  rw [encode_eq_reverse_map]; simp

lemma encode_getD (num pad shift : Nat) {j : Nat} (hj : j < pad) :
    (encode num pad shift).getD j ' ' =
      ALPHABET.getD ((baseDigits num pad shift).getD ((shift + (pad - 1 - j)) % pad) 0) ' ' := by
  rw [encode_eq_reverse_map]
  rw [List.getD_eq_getElem _ _ (by simpa using hj)]
  rw [List.getElem_reverse]
  simp

lemma encode_mem_alpha (num pad shift : Nat) {c : Char} (hc : c ∈ encode num pad shift) :
    c ∈ ALPHABET := by
  rw [encode_eq_reverse_map, List.mem_reverse] at hc
  rcases List.mem_map.mp hc with ⟨i, _, rfl⟩
  exact alpha_getD_mem _ (baseDigits_getD_lt num pad shift _)

/-- Below `2 ^ 53` every natural number is a binary64 value, so the
rounding is the identity. -/
lemma roundFloat_of_lt {n : Nat} (h : n < 2 ^ 53) : roundFloat n = n := by
  unfold roundFloat
  rw [if_pos h]

/-- For `num < 2 ^ 53` every digit quotient is below `2 ^ 53`, so the
floating-point reading of the digit formula agrees with the exact one. -/
lemma baseDigitsFloat_eq_baseDigits (num pad shift : Nat) (h : num < 2 ^ 53) :
    baseDigitsFloat num pad shift = baseDigits num pad shift := by
  unfold baseDigitsFloat baseDigits
  apply List.map_congr_left
  intro p _
  rw [roundFloat_of_lt (lt_of_le_of_lt (Nat.div_le_self _ _) h)]

/-- For `num < 2 ^ 53` the floating-point reading of `encode` agrees
with the exact one. -/
lemma encodeFloat_eq_encode (num pad shift : Nat) (h : num < 2 ^ 53) :
    encodeFloat num pad shift = encode num pad shift := by
  unfold encodeFloat encode
  rw [baseDigitsFloat_eq_baseDigits num pad shift h]

/-! ### Arithmetic lemmas -/

/-- Un-permuting: reading the encoded string at position `(i + shift) % l`
lands on the base digit at position `l - 1 - i`. -/
lemma perm_index_eq {l i : Nat} (shift : Nat) (hl : 0 < l) (hi : i < l) :
    (shift + (l - 1 - (i + shift) % l)) % l = l - 1 - i := by
  have hd := Nat.div_add_mod (i + shift) l
  have hr : (i + shift) % l < l := Nat.mod_lt _ hl
  have key : shift + (l - 1 - (i + shift) % l) = l * ((i + shift) / l) + (l - 1 - i) := by
    omega
  rw [key, Nat.mul_add_mod, Nat.mod_eq_of_lt (by omega)]

/-- Un-perturbing: subtracting shift and power modulo `NUM_CHARS` recovers
the raw digit. -/
lemma digit_recover (d shift power : Nat) (hd : d < NUM_CHARS) :
    wrap_to_positive ((((d + shift + power) % NUM_CHARS : Nat) : Int) - (shift : Int) - (power : Int))
        (NUM_CHARS : Int) = (d : Int) := by
  rw [wrap_to_positive_eq_emod]
  rw [NUM_CHARS_eq] at hd ⊢
  push_cast
  omega

/-- Positional reconstruction: summing `digit * base ^ power` over all
positions yields the value modulo `base ^ width`. -/
lemma sum_digits_eq_mod (num : Nat) :
    ∀ pad, ((List.range pad).map
        (fun p => num / NUM_CHARS ^ p % NUM_CHARS * NUM_CHARS ^ p)).sum
      = num % NUM_CHARS ^ pad := by
  intro pad
  induction pad with
  | zero => simp [Nat.mod_one]
  | succ n ih =>
    rw [List.range_succ, List.map_append, List.sum_append, ih]
    simp only [List.map_cons, List.map_nil, List.sum_cons, List.sum_nil, add_zero]
    have h1 : num % NUM_CHARS ^ (n + 1) / NUM_CHARS ^ n = num / NUM_CHARS ^ n % NUM_CHARS := by
      rw [← Nat.mod_mul_right_div_self, pow_succ]
    have h3 := Nat.div_add_mod (num % NUM_CHARS ^ (n + 1)) (NUM_CHARS ^ n)
    rw [h1, Nat.mod_mod_of_dvd _ (pow_dvd_pow _ (Nat.le_succ n))] at h3
    rw [← h3]
    ring

/-- Truncation: only the value modulo `NUM_CHARS ^ pad` influences any
digit of width `pad`. -/
lemma div_mod_mod_eq {num pad p : Nat} (hp : p < pad) :
    num % NUM_CHARS ^ pad / NUM_CHARS ^ p % NUM_CHARS = num / NUM_CHARS ^ p % NUM_CHARS := by
  rw [← Nat.mod_mul_right_div_self, ← Nat.mod_mul_right_div_self num]
  rw [← pow_succ, Nat.mod_mod_of_dvd _ (pow_dvd_pow _ (by omega))]

lemma map_range_reflect {α : Type} (F : Nat → α) (n : Nat) :
    (List.range n).map (fun i => F (n - 1 - i)) = ((List.range n).map F).reverse := by
  induction n with
  | zero => rfl
  | succ m ih =>
    conv_lhs => rw [List.range_succ_eq_map]
    conv_rhs => rw [List.range_succ]
    simp only [List.map_cons, List.map_map, List.map_append, List.reverse_append,
      List.map_nil, List.reverse_cons, List.reverse_nil, List.nil_append, List.singleton_append]
    congr 1
    rw [← ih]
    apply List.map_congr_left
    intro i _
    simp only [Function.comp_apply]
    congr 1
    omega

/-! ### Facts about the repositioning dictionary of `decode` -/

lemma key_lt {l : Nat} (hl : 0 < l) (i shift : Nat) :
    (wrap_to_positive ((i : Int) - (shift : Int)) (l : Int)).toNat < l := by
  rw [wrap_to_positive_eq_emod]
  have hl' : (0 : Int) < (l : Int) := by exact_mod_cast hl
  have h1 : ((i : Int) - (shift : Int)) % (l : Int) < (l : Int) := Int.emod_lt_of_pos _ hl'
  have h2 : 0 ≤ ((i : Int) - (shift : Int)) % (l : Int) := Int.emod_nonneg _ hl'.ne'
  omega

/-- The key written for source position `i` reads back source position `i`:
adding the shift modulo the length inverts the key map. -/
lemma key_add_shift {l i shift : Nat} (hl : 0 < l) (hi : i < l) :
    ((wrap_to_positive ((i : Int) - (shift : Int)) (l : Int)).toNat + shift) % l = i := by
  rw [wrap_to_positive_eq_emod]
  have hl' : (0 : Int) < (l : Int) := by exact_mod_cast hl
  have h2 : 0 ≤ ((i : Int) - (shift : Int)) % (l : Int) := Int.emod_nonneg _ hl'.ne'
  have hcast :
      (((((i : Int) - (shift : Int)) % (l : Int)).toNat + shift) % l : Nat) = (i : Nat) := by
    have hint :
        (((((((i : Int) - (shift : Int)) % (l : Int)).toNat + shift) % l : Nat)) : Int)
          = (i : Int) := by
      push_cast [Int.toNat_of_nonneg h2]
      rw [Int.emod_add_emod, sub_add_cancel]
      exact Int.emod_eq_of_lt (by exact_mod_cast Nat.zero_le i) (by exact_mod_cast hi)
    exact_mod_cast hint
  exact hcast

/-- The key map inverts reading at `(k + shift) % l`. -/
lemma key_of_inv {l k shift : Nat} (hl : 0 < l) (hk : k < l) :
    (wrap_to_positive ((((k + shift) % l : Nat) : Int) - (shift : Int)) (l : Int)).toNat = k := by
  rw [wrap_to_positive_eq_emod]
  have hl' : (0 : Int) < (l : Int) := by exact_mod_cast hl
  have hint : ((((k + shift) % l : Nat) : Int) - (shift : Int)) % (l : Int) = (k : Int) := by
    push_cast
    rw [Int.sub_emod, Int.emod_emod, ← Int.sub_emod, add_sub_cancel_right]
    exact Int.emod_eq_of_lt (by exact_mod_cast Nat.zero_le k) (by exact_mod_cast hk)
  rw [hint]
  exact Int.toNat_natCast k

lemma repositionedChars_fold (s : List Char) (shift : Nat) :
    ∀ (m : Nat), m ≤ s.length → ∀ (k : Nat), k < s.length →
      ((List.range m).foldl
        (fun repositioned (i : Nat) =>
          Function.update repositioned
            (wrap_to_positive ((i : Int) - (shift : Int)) (s.length : Int)).toNat
            (some (s.getD i ' ')))
        (fun _ => none)) k
      = if (k + shift) % s.length < m then some (s.getD ((k + shift) % s.length) ' ')
        else none := by
  intro m
  induction m with
  | zero => intro _ k _; simp
  | succ m ih =>
    intro hm k hk
    have hl : 0 < s.length := by omega
    rw [List.range_succ, List.foldl_append, List.foldl_cons, List.foldl_nil]
    rw [Function.update_apply]
    by_cases hkey : k = (wrap_to_positive ((m : Int) - (shift : Int)) (s.length : Int)).toNat
    · rw [if_pos hkey]
      have h1 : (k + shift) % s.length = m := by
        rw [hkey]; exact key_add_shift hl (by omega)
      rw [h1, if_pos (Nat.lt_succ_self m)]
    · rw [if_neg hkey, ih (by omega) k hk]
      have h2 : (k + shift) % s.length ≠ m := by
        intro he
        apply hkey
        have h3 := @key_of_inv s.length k shift hl hk
        rw [he] at h3
        exact h3.symm
      by_cases hc : (k + shift) % s.length < m
      · rw [if_pos hc, if_pos (by omega)]
      · rw [if_neg hc, if_neg (by omega)]

lemma repositionedChars_apply (s : List Char) (shift : Nat) {k : Nat} (hk : k < s.length) :
    repositionedChars s shift k = some (s.getD ((k + shift) % s.length) ' ') := by
  have hl : 0 < s.length := by omega
  have h := repositionedChars_fold s shift s.length le_rfl k hk
  rw [if_pos (Nat.mod_lt _ hl)] at h
  exact h

/-- The keys written by the first loop of `decode` are pairwise distinct,
so the dictionary has exactly one entry per character of the input. -/
lemma numRepoChars_eq (s : List Char) (shift : Nat) : numRepoChars s shift = s.length := by
  unfold numRepoChars
  have hnodup :
      ((List.range s.length).map
        (fun (i : Nat) =>
          (wrap_to_positive ((i : Int) - (shift : Int)) (s.length : Int)).toNat)).Nodup := by
    apply List.Nodup.map_on _ (List.nodup_range _)
    intro x hx y hy hxy
    rw [List.mem_range] at hx hy
    have hl : 0 < s.length := by omega
    have h1 := @key_add_shift s.length x shift hl hx
    have h2 := @key_add_shift s.length y shift hl hy
    rw [hxy] at h1
    rw [h1] at h2
    exact h2
  rw [List.dedup_eq_self.mpr hnodup, List.length_map, List.length_range]

/-! ### Facts about the accumulation loop of `decode` -/

lemma foldl_decodeStep_error (repositioned : Nat → Option Char) (shift n : Nat) :
    ∀ (L : List Nat) (e : PyErr),
      L.foldl (decodeStep repositioned shift n) (Except.error e) = Except.error e := by
  intro L
  induction L with
  | nil => intro e; rfl
  | cons a L ih =>
    intro e
    rw [List.foldl_cons]
    exact ih e

lemma foldl_decodeStep_ok (repositioned : Nat → Option Char) (shift n : Nat) (g : Nat → Int) :
    ∀ (L : List Nat) (t : Int),
      (∀ i ∈ L, ∃ c d, repositioned i = some c ∧ index_of c ALPHABET = some d ∧
          wrap_to_positive ((d : Int) - (shift : Int) - ((n - i - 1 : Nat) : Int))
              (NUM_CHARS : Int) *
            (NUM_CHARS : Int) ^ (n - i - 1) = g i) →
      L.foldl (decodeStep repositioned shift n) (Except.ok t) = Except.ok (t + (L.map g).sum) := by
  intro L
  induction L with
  | nil => intro t _; simp
  | cons a L ih =>
    intro t hall
    obtain ⟨c, d, hc, hd, hterm⟩ := hall a (List.mem_cons_self a L)
    rw [List.foldl_cons]
    have hstep : decodeStep repositioned shift n (Except.ok t) a = Except.ok (t + g a) := by
      simp only [decodeStep, hc, hd, hterm]
    rw [hstep, ih (t + g a) (fun i hi => hall i (List.mem_cons_of_mem a hi))]
    rw [List.map_cons, List.sum_cons, add_assoc]

lemma foldl_decodeStep_valueError (repositioned : Nat → Option Char) (shift n : Nat) :
    ∀ (L : List Nat) (t : Int),
      (∀ i ∈ L, ∃ c, repositioned i = some c) →
      (∃ i ∈ L, ∃ c, repositioned i = some c ∧ index_of c ALPHABET = none) →
      L.foldl (decodeStep repositioned shift n) (Except.ok t) = Except.error PyErr.valueError := by
  intro L
  induction L with
  | nil =>
    intro t _ hbad
    simp at hbad
  | cons a L ih =>
    intro t hall hbad
    rw [List.foldl_cons]
    obtain ⟨ca, hca⟩ := hall a (List.mem_cons_self a L)
    cases hia : index_of ca ALPHABET with
    | none =>
      have hstep : decodeStep repositioned shift n (Except.ok t) a
          = Except.error PyErr.valueError := by
        simp only [decodeStep, hca, hia]
      rw [hstep, foldl_decodeStep_error]
    | some d =>
      have hstep : decodeStep repositioned shift n (Except.ok t) a
          = Except.ok (t +
              wrap_to_positive ((d : Int) - (shift : Int) - ((n - a - 1 : Nat) : Int))
                  (NUM_CHARS : Int) *
                (NUM_CHARS : Int) ^ (n - a - 1)) := by
        simp only [decodeStep, hca, hia]
      rw [hstep]
      apply ih
      · exact fun i hi => hall i (List.mem_cons_of_mem a hi)
      · obtain ⟨i, hiL, c, hc, hnone⟩ := hbad
        rcases List.mem_cons.mp hiL with heq | hiL'
        · subst heq
          rw [hca] at hc
          injection hc with h
          subst h
          rw [hia] at hnone
          exact absurd hnone (by simp)
        · exact ⟨i, hiL', c, hc, hnone⟩

/-! ### Decoding inverts encoding -/

/-- Decoding an encoded width-`pad` value with the same shift recovers
the value modulo `NUM_CHARS ^ pad`, for every width and every shift. -/
lemma decode_encode (num pad shift : Nat) :
    decode (encode num pad shift) shift = Except.ok ((num % NUM_CHARS ^ pad : Nat) : Int) := by
  have hlen : (encode num pad shift).length = pad := encode_length num pad shift
  have hhyp : ∀ i ∈ (List.range pad).reverse,
      ∃ c d, repositionedChars (encode num pad shift) shift i = some c ∧
        index_of c ALPHABET = some d ∧
        wrap_to_positive ((d : Int) - (shift : Int) - ((pad - i - 1 : Nat) : Int))
            (NUM_CHARS : Int) * (NUM_CHARS : Int) ^ (pad - i - 1)
          = ((num / NUM_CHARS ^ (pad - 1 - i) % NUM_CHARS * NUM_CHARS ^ (pad - 1 - i) : Nat) : Int) := by
    intro i hi
    rw [List.mem_reverse, List.mem_range] at hi
    have hl : 0 < pad := by omega
    have hk : i < (encode num pad shift).length := by omega
    have hrepo := repositionedChars_apply (encode num pad shift) shift hk
    rw [hlen] at hrepo
    refine ⟨_, (baseDigits num pad shift).getD (pad - 1 - i) 0, hrepo, ?_, ?_⟩
    · rw [encode_getD num pad shift (Nat.mod_lt _ hl), perm_index_eq shift hl hi]
      exact index_of_alpha_getD _ (baseDigits_getD_lt num pad shift _)
    · rw [baseDigits_getD num pad shift (show pad - 1 - i < pad by omega)]
      have hexp : pad - i - 1 = pad - 1 - i := by omega
      rw [hexp, digit_recover _ shift _ (Nat.mod_lt _ NUM_CHARS_pos)]
      push_cast
      ring
  have hmain := foldl_decodeStep_ok (repositionedChars (encode num pad shift) shift) shift pad
      (fun i => ((num / NUM_CHARS ^ (pad - 1 - i) % NUM_CHARS * NUM_CHARS ^ (pad - 1 - i) : Nat) : Int))
      (List.range pad).reverse 0 hhyp
  have hsum : (((List.range pad).reverse.map
      (fun i =>
        ((num / NUM_CHARS ^ (pad - 1 - i) % NUM_CHARS * NUM_CHARS ^ (pad - 1 - i) : Nat) : Int))).sum)
      = ((num % NUM_CHARS ^ pad : Nat) : Int) := by
    rw [List.map_reverse, List.sum_reverse]
    have h1 := map_range_reflect
        (fun p => ((num / NUM_CHARS ^ p % NUM_CHARS * NUM_CHARS ^ p : Nat) : Int)) pad
    rw [h1, List.sum_reverse, ← sum_digits_eq_mod num pad, Nat.cast_list_sum, List.map_map]
    rfl
  show (List.range (numRepoChars (encode num pad shift) shift)).reverse.foldl
      (decodeStep (repositionedChars (encode num pad shift) shift) shift
        (numRepoChars (encode num pad shift) shift)) (Except.ok 0)
    = Except.ok ((num % NUM_CHARS ^ pad : Nat) : Int)
  rw [numRepoChars_eq, hlen, hmain, zero_add, hsum]

/-- If every character of the input lies in the alphabet, `decode`
returns a value (there is no length requirement at all). -/
lemma decode_ok_of_mem (s : List Char) (shift : Nat) (h : ∀ c ∈ s, c ∈ ALPHABET) :
    ∃ v, decode s shift = Except.ok v := by
  have hhyp : ∀ i ∈ (List.range s.length).reverse,
      ∃ c d, repositionedChars s shift i = some c ∧ index_of c ALPHABET = some d ∧
        wrap_to_positive ((d : Int) - (shift : Int) - ((s.length - i - 1 : Nat) : Int))
            (NUM_CHARS : Int) * (NUM_CHARS : Int) ^ (s.length - i - 1)
          = wrap_to_positive
              ((((index_of (s.getD ((i + shift) % s.length) ' ') ALPHABET).getD 0 : Nat) : Int)
                - (shift : Int) - ((s.length - i - 1 : Nat) : Int)) (NUM_CHARS : Int) *
              (NUM_CHARS : Int) ^ (s.length - i - 1) := by
    intro i hi
    rw [List.mem_reverse, List.mem_range] at hi
    have hl : 0 < s.length := by omega
    have hrepo := repositionedChars_apply s shift hi
    have hmem : s.getD ((i + shift) % s.length) ' ' ∈ s := by
      have hlt : (i + shift) % s.length < s.length := Nat.mod_lt _ hl
      rw [List.getD_eq_getElem _ _ hlt]
      exact List.getElem_mem _
    obtain ⟨d, hd⟩ := index_of_isSome_of_mem (h _ hmem)
    refine ⟨_, d, hrepo, hd, ?_⟩
    rw [hd]
    rfl
  have hmain := foldl_decodeStep_ok (repositionedChars s shift) shift s.length
      (fun i =>
        wrap_to_positive
            ((((index_of (s.getD ((i + shift) % s.length) ' ') ALPHABET).getD 0 : Nat) : Int)
              - (shift : Int) - ((s.length - i - 1 : Nat) : Int)) (NUM_CHARS : Int) *
          (NUM_CHARS : Int) ^ (s.length - i - 1))
      (List.range s.length).reverse 0 hhyp
  have hdec : decode s shift
      = (List.range (numRepoChars s shift)).reverse.foldl
          (decodeStep (repositionedChars s shift) shift (numRepoChars s shift))
          (Except.ok 0) := rfl
  rw [numRepoChars_eq] at hdec
  exact ⟨_, hdec.trans hmain⟩

/-- If some character of the input is outside the alphabet, `decode`
fails with the `ValueError` of `ALPHABET.index`. -/
lemma decode_valueError_of_bad (s : List Char) (shift : Nat)
    (h : ∃ c ∈ s, c ∉ ALPHABET) :
    decode s shift = Except.error PyErr.valueError := by
  obtain ⟨c, hcs, hcn⟩ := h
  obtain ⟨j, hj, hcj⟩ := List.mem_iff_getElem.mp hcs
  have hl : 0 < s.length := by omega
  have hcn' : s.getD j ' ' ∉ ALPHABET := by
    rw [List.getD_eq_getElem _ _ hj, hcj]
    exact hcn
  show (List.range (numRepoChars s shift)).reverse.foldl
      (decodeStep (repositionedChars s shift) shift (numRepoChars s shift)) (Except.ok 0)
    = Except.error PyErr.valueError
  rw [numRepoChars_eq]
  apply foldl_decodeStep_valueError
  · intro i hi
    rw [List.mem_reverse, List.mem_range] at hi
    exact ⟨_, repositionedChars_apply s shift hi⟩
  · refine ⟨(wrap_to_positive ((j : Int) - (shift : Int)) (s.length : Int)).toNat, ?_, _,
      repositionedChars_apply s shift (key_lt hl j shift), ?_⟩
    · rw [List.mem_reverse, List.mem_range]
      exact key_lt hl j shift
    · rw [key_add_shift hl hj]
      exact (index_of_eq_none_iff _ ALPHABET).mpr hcn'

/-! ### Structure of `encode_store_and_sequence` -/

lemma encodeSS_eq (store sequence : Nat) :
    encode_store_and_sequence store sequence
      = encode store STORE_SIZE (sequence % MOD_BY + 1) ++
          ALPHABET.getD (sequence % MOD_BY + 1) ' ' ::
            encode sequence SEQUENCE_SIZE (sequence % MOD_BY + 1) := rfl

lemma shift_lt_NUM_CHARS (sequence : Nat) : sequence % MOD_BY + 1 < NUM_CHARS := by
  have hM : MOD_BY = 23 := rfl
  have h := Nat.mod_lt sequence (show 0 < MOD_BY by decide)
  rw [NUM_CHARS_eq]
  omega

lemma encodeSS_get_shift (store sequence : Nat) :
    (encode_store_and_sequence store sequence).get? SHIFT_INDEX
      = some (ALPHABET.getD (sequence % MOD_BY + 1) ' ') := by
  rw [encodeSS_eq,
    List.get?_append_right (by rw [encode_length]; decide)]
  rw [encode_length]
  rfl

lemma encodeSS_take (store sequence : Nat) :
    (encode_store_and_sequence store sequence).take STORE_SIZE
      = encode store STORE_SIZE (sequence % MOD_BY + 1) := by
  rw [encodeSS_eq]
  exact List.take_left' (encode_length _ _ _)

lemma encodeSS_drop (store sequence : Nat) :
    (encode_store_and_sequence store sequence).drop (SHIFT_INDEX + 1)
      = encode sequence SEQUENCE_SIZE (sequence % MOD_BY + 1) := by
  rw [encodeSS_eq]
  rw [show encode store STORE_SIZE (sequence % MOD_BY + 1) ++
        ALPHABET.getD (sequence % MOD_BY + 1) ' ' ::
          encode sequence SEQUENCE_SIZE (sequence % MOD_BY + 1)
      = (encode store STORE_SIZE (sequence % MOD_BY + 1) ++
          [ALPHABET.getD (sequence % MOD_BY + 1) ' ']) ++
          encode sequence SEQUENCE_SIZE (sequence % MOD_BY + 1) by simp]
  exact List.drop_left' (by rw [List.length_append, encode_length]; rfl)

lemma encodeSS_length (store sequence : Nat) :
    (encode_store_and_sequence store sequence).length
      = STORE_SIZE + 1 + SEQUENCE_SIZE := by
  rw [encodeSS_eq]
  simp [encode_length]
  omega

/-! ### The claims -/

/-- C3 counterexample: the claimed inverse fails on the program for
widths that reach the float-inexact regime.  At `pad = 12`, `shift = 0`
(a shift in `[0, NUM_CHARS)`), `num = 2 ^ 53 + 1 < NUM_CHARS ^ 12`, the
binary64 rounding in the digit division maps `num / 27 ^ 0` to `2 ^ 53`
at power 0, so the round trip returns `2 ^ 53`, not `num`. -/
theorem C3_counterexample :
    1 ≤ 12 ∧ (0 : Nat) < NUM_CHARS ∧ 2 ^ 53 + 1 < NUM_CHARS ^ 12 ∧
    decode (encodeFloat (2 ^ 53 + 1) 12 0) 0 = Except.ok ((2 ^ 53 : Nat) : Int) ∧
    ((2 ^ 53 : Nat) : Int) ≠ ((2 ^ 53 + 1 : Nat) : Int) := by
  refine ⟨by norm_num, by decide, by norm_num [NUM_CHARS_eq], ?_, by decide⟩
  rfl

/-- C3 (amended): restricted to `num < 2 ^ 53` — the regime where the
floating-point digit division is provably the identity, which includes
every width the facade uses — the inner digit-transform-plus-permutation
pair is an exact algebraic inverse: for every width `pad ≥ 1`, every
shift in `[0, NUM_CHARS)` and every `num` in `[0, NUM_CHARS ^ pad)`
with `num < 2 ^ 53`,
`decode(encode(num, pad, shift), shift) = num`. -/
theorem C3_encode_decode_inverse (pad shift num : Nat)
    (hpad : 1 ≤ pad) (hshift : shift < NUM_CHARS) (hnum : num < NUM_CHARS ^ pad)
    (hfloat : num < 2 ^ 53) :
    decode (encodeFloat num pad shift) shift = Except.ok (num : Int) := by
  rw [encodeFloat_eq_encode num pad shift hfloat, decode_encode, Nat.mod_eq_of_lt hnum]

theorem C3_witness :
    1 ≤ 2 ∧ 5 < NUM_CHARS ∧ 100 < NUM_CHARS ^ 2 ∧ 100 < 2 ^ 53 ∧
      decode (encodeFloat 100 2 5) 5 = Except.ok (100 : Int) :=
  ⟨by decide, by decide, by decide, by norm_num,
    C3_encode_decode_inverse 2 5 100 (by decide) (by decide) (by decide) (by norm_num)⟩

/-- C1: For every store in `[0, NUM_CHARS ^ STORE_SIZE)` and every
sequence in `[0, NUM_CHARS ^ SEQUENCE_SIZE)` (with the configured
constants and alphabet), decoding the encoded pair returns exactly
`(store, sequence)`; in particular every pair with store in `20..25` and
sequence in `2000..2100` round-trips with zero mismatches. -/
theorem C1_round_trip (store sequence : Nat)
    (h1 : store < NUM_CHARS ^ STORE_SIZE) (h2 : sequence < NUM_CHARS ^ SEQUENCE_SIZE) :
    decode_to_store_and_sequence (encode_store_and_sequence store sequence)
      = Except.ok ((store : Int), (sequence : Int)) := by
  have hidx := index_of_alpha_getD _ (shift_lt_NUM_CHARS sequence)
  simp only [decode_to_store_and_sequence, encodeSS_get_shift, hidx,
    encodeSS_take, encodeSS_drop, decode_encode,
    Nat.mod_eq_of_lt h1, Nat.mod_eq_of_lt h2]

theorem C1_witness :
    20 < NUM_CHARS ^ STORE_SIZE ∧ 2000 < NUM_CHARS ^ SEQUENCE_SIZE ∧
      decode_to_store_and_sequence (encode_store_and_sequence 20 2000)
        = Except.ok ((20 : Int), (2000 : Int)) :=
  ⟨by decide, by decide, C1_round_trip 20 2000 (by decide) (by decide)⟩

/-- C4 counterexample: the claimed truncation-with-no-precision-loss
fails on the program above `2 ^ 53`.  At `num = 2 ^ 53 + 1 ≥ NUM_CHARS ^ 1`,
`pad = 1`, `shift = 0`, the binary64 rounding in the digit division maps
`num / 27 ^ 0` to `2 ^ 53`, whose digit `2 ^ 53 % 27 = 14` differs from
the digit 15 of the truncated value `num % 27 = 15`, so the two encoded
strings differ. -/
theorem C4_counterexample :
    NUM_CHARS ^ 1 ≤ 2 ^ 53 + 1 ∧
    encodeFloat (2 ^ 53 + 1) 1 0 ≠ encodeFloat ((2 ^ 53 + 1) % NUM_CHARS ^ 1) 1 0 := by
  constructor
  · decide
  · decide

/-- C4 (amended): for every `num` that exceeds its domain bound
`NUM_CHARS ^ pad - 1` while staying below `2 ^ 53` — the regime where
the floating-point digit division is provably exact — `encode` raises
no error and truncates: the encoding of `num` equals the encoding of
`num % NUM_CHARS ^ pad`, the digit computation behaving as exact
integer arithmetic there. -/
theorem C4_encode_truncates (num pad shift : Nat)
    (h : NUM_CHARS ^ pad ≤ num) (hfloat : num < 2 ^ 53) :
    encodeFloat num pad shift = encodeFloat (num % NUM_CHARS ^ pad) pad shift := by
  rw [encodeFloat_eq_encode num pad shift hfloat,
    encodeFloat_eq_encode _ pad shift (lt_of_le_of_lt (Nat.mod_le _ _) hfloat)]
  rw [encode_eq_reverse_map, encode_eq_reverse_map]
  congr 1
  apply List.map_congr_left
  intro i hi
  rw [List.mem_range] at hi
  have hl : 0 < pad := by omega
  congr 1
  rw [baseDigits_getD _ _ _ (Nat.mod_lt _ hl), baseDigits_getD _ _ _ (Nat.mod_lt _ hl)]
  rw [div_mod_mod_eq (Nat.mod_lt _ hl)]

theorem C4_witness :
    NUM_CHARS ^ 2 ≤ 734 ∧ 734 < 2 ^ 53 ∧
      encodeFloat 734 2 3 = encodeFloat (734 % NUM_CHARS ^ 2) 2 3 :=
  ⟨by decide, by norm_num, C4_encode_truncates 734 2 3 (by decide) (by norm_num)⟩

/-- C5 counterexample: the reference alphabet does not have 28 symbols:
`NUM_CHARS = len('BCDEFGHJKMNPRSTVWXY23456789') = 27`. -/
theorem C5_counterexample : ¬ (NUM_CHARS = 28) := by decide

/-- C5 (amended): the reference alphabet consists of 27 distinct
symbols: `NUM_CHARS = 27` and no symbol occurs twice in `ALPHABET`. -/
theorem C5_alphabet_distinct : NUM_CHARS = 27 ∧ ALPHABET.Nodup := by decide

/-- C6: For every in-domain pair, the encoded string has length exactly
`STORE_SIZE + 1 + SEQUENCE_SIZE` (= 12), structured as the store
segment (length `STORE_SIZE`), the shift character, and the sequence
segment (length `SEQUENCE_SIZE`). -/
theorem C6_fixed_length (store sequence : Nat)
    (h1 : store < NUM_CHARS ^ STORE_SIZE) (h2 : sequence < NUM_CHARS ^ SEQUENCE_SIZE) :
    (encode_store_and_sequence store sequence).length = STORE_SIZE + 1 + SEQUENCE_SIZE ∧
    encode_store_and_sequence store sequence
      = encode store STORE_SIZE (sequence % MOD_BY + 1) ++
          ALPHABET.getD (sequence % MOD_BY + 1) ' ' ::
            encode sequence SEQUENCE_SIZE (sequence % MOD_BY + 1) ∧
    (encode store STORE_SIZE (sequence % MOD_BY + 1)).length = STORE_SIZE ∧
    (encode sequence SEQUENCE_SIZE (sequence % MOD_BY + 1)).length = SEQUENCE_SIZE :=
  ⟨encodeSS_length store sequence, encodeSS_eq store sequence,
    encode_length _ _ _, encode_length _ _ _⟩

theorem C6_witness :
    20 < NUM_CHARS ^ STORE_SIZE ∧ 2000 < NUM_CHARS ^ SEQUENCE_SIZE ∧
      (encode_store_and_sequence 20 2000).length = STORE_SIZE + 1 + SEQUENCE_SIZE :=
  ⟨by decide, by decide, (C6_fixed_length 20 2000 (by decide) (by decide)).1⟩

/-- C7: For every in-domain pair, the character at `SHIFT_INDEX` of the
code is `ALPHABET[(sequence % MOD_BY) + 1]`, and the shift value
recovered from it by the alphabet lookup is `(sequence % MOD_BY) + 1`,
which always lies in `[1, MOD_BY]` and is a valid alphabet index. -/
theorem C7_shift_legality (store sequence : Nat)
    (h1 : store < NUM_CHARS ^ STORE_SIZE) (h2 : sequence < NUM_CHARS ^ SEQUENCE_SIZE) :
    (encode_store_and_sequence store sequence).get? SHIFT_INDEX
        = some (ALPHABET.getD (sequence % MOD_BY + 1) ' ') ∧
    index_of (ALPHABET.getD (sequence % MOD_BY + 1) ' ') ALPHABET
        = some (sequence % MOD_BY + 1) ∧
    1 ≤ sequence % MOD_BY + 1 ∧ sequence % MOD_BY + 1 ≤ MOD_BY ∧
    sequence % MOD_BY + 1 < NUM_CHARS := by
  refine ⟨encodeSS_get_shift store sequence,
    index_of_alpha_getD _ (shift_lt_NUM_CHARS sequence), by omega, ?_,
    shift_lt_NUM_CHARS sequence⟩
  have h := Nat.mod_lt sequence (show 0 < MOD_BY by decide)
  omega

theorem C7_witness :
    20 < NUM_CHARS ^ STORE_SIZE ∧ 2000 < NUM_CHARS ^ SEQUENCE_SIZE ∧
      (1 ≤ 2000 % MOD_BY + 1 ∧ 2000 % MOD_BY + 1 ≤ MOD_BY) :=
  ⟨by decide, by decide,
    ⟨(C7_shift_legality 20 2000 (by decide) (by decide)).2.2.1,
     (C7_shift_legality 20 2000 (by decide) (by decide)).2.2.2.1⟩⟩

/-- C9: Every character of an in-domain encoded code is a member of the
configured alphabet. -/
theorem C9_alphabet_closure (store sequence : Nat)
    (h1 : store < NUM_CHARS ^ STORE_SIZE) (h2 : sequence < NUM_CHARS ^ SEQUENCE_SIZE) :
    ∀ c ∈ encode_store_and_sequence store sequence, c ∈ ALPHABET := by
  intro c hc
  rw [encodeSS_eq] at hc
  rcases List.mem_append.mp hc with hc | hc
  · exact encode_mem_alpha _ _ _ hc
  · rcases List.mem_cons.mp hc with heq | hc
    · rw [heq]
      exact alpha_getD_mem _ (shift_lt_NUM_CHARS sequence)
    · exact encode_mem_alpha _ _ _ hc

theorem C9_witness :
    20 < NUM_CHARS ^ STORE_SIZE ∧ 2000 < NUM_CHARS ^ SEQUENCE_SIZE ∧
      (∀ c ∈ encode_store_and_sequence 20 2000, c ∈ ALPHABET) :=
  ⟨by decide, by decide, C9_alphabet_closure 20 2000 (by decide) (by decide)⟩

/-- C8: Consecutive sequence values with the same store never yield
codes sharing a common prefix of length `≥ SEQUENCE_SIZE - 1` (= 7):
the embedded shift characters at position `SHIFT_INDEX` already differ;
in particular the codes for `(20, 2000)` and `(20, 2001)` differ in
more than their last character (position 11). -/
theorem C8_consecutive_differ (store sequence : Nat)
    (h1 : store < NUM_CHARS ^ STORE_SIZE) (h2 : sequence + 1 < NUM_CHARS ^ SEQUENCE_SIZE) :
    (encode_store_and_sequence store sequence).take (SEQUENCE_SIZE - 1)
        ≠ (encode_store_and_sequence store (sequence + 1)).take (SEQUENCE_SIZE - 1) ∧
    ∃ i, i < STORE_SIZE + 1 + SEQUENCE_SIZE - 1 ∧
      (encode_store_and_sequence 20 2000).get? i
        ≠ (encode_store_and_sequence 20 2001).get? i := by
  constructor
  · intro heq
    have h3 : ((encode_store_and_sequence store sequence).take (SEQUENCE_SIZE - 1)).get?
          SHIFT_INDEX
        = ((encode_store_and_sequence store (sequence + 1)).take (SEQUENCE_SIZE - 1)).get?
          SHIFT_INDEX := by rw [heq]
    rw [List.get?_take (by decide), List.get?_take (by decide)] at h3
    rw [encodeSS_get_shift, encodeSS_get_shift] at h3
    injection h3 with h4
    have h5 := alpha_getD_injective _ (shift_lt_NUM_CHARS sequence) _
      (shift_lt_NUM_CHARS (sequence + 1)) h4
    have hM : MOD_BY = 23 := rfl
    rw [hM] at h5
    omega
  · exact ⟨SHIFT_INDEX, by decide, by decide⟩

theorem C8_witness :
    20 < NUM_CHARS ^ STORE_SIZE ∧ 2000 + 1 < NUM_CHARS ^ SEQUENCE_SIZE ∧
      (encode_store_and_sequence 20 2000).take (SEQUENCE_SIZE - 1)
        ≠ (encode_store_and_sequence 20 2001).take (SEQUENCE_SIZE - 1) :=
  ⟨by decide, by decide, (C8_consecutive_differ 20 2000 (by decide) (by decide)).1⟩

/-- C2 counterexample: the claim that `decode_to_store_and_sequence`
fails on every string whose length differs from
`STORE_SIZE + 1 + SEQUENCE_SIZE` is false: the length-5 string
`"BBBBB"` is decoded without any error, silently returning a tuple. -/
theorem C2_counterexample :
    ("BBBBB".toList).length ≠ STORE_SIZE + 1 + SEQUENCE_SIZE ∧
    decode_to_store_and_sequence ("BBBBB".toList)
      = Except.ok ((18927 : Int), (0 : Int)) := by
  constructor
  · decide
  · rfl

/-- C2 (amended): `decode_to_store_and_sequence` performs no length
validation and raises no dedicated `MalformedCode` error.  It fails
(with the model of Python's `IndexError`) exactly when the input is
shorter than `SHIFT_INDEX + 1 = 4`; on longer input it fails (with the
model of `ValueError`) exactly when some character lies outside the
alphabet; and on any input of length `≥ 4` all of whose characters are
in the alphabet — including every wrong-length one — it silently
returns a `(store, sequence)` tuple. -/
theorem C2_decode_malformed (enc : List Char) :
    (enc.length < SHIFT_INDEX + 1 →
        decode_to_store_and_sequence enc = Except.error PyErr.indexError) ∧
    (SHIFT_INDEX + 1 ≤ enc.length → (∀ c ∈ enc, c ∈ ALPHABET) →
        ∃ p, decode_to_store_and_sequence enc = Except.ok p) ∧
    (SHIFT_INDEX + 1 ≤ enc.length → (∃ c ∈ enc, c ∉ ALPHABET) →
        decode_to_store_and_sequence enc = Except.error PyErr.valueError) := by
  refine ⟨?_, ?_, ?_⟩
  · intro hlen
    have hnone : enc.get? SHIFT_INDEX = none := by
      rw [List.get?_eq_none]
      omega
    simp only [decode_to_store_and_sequence, hnone]
  · intro hlen hall
    have hlt : SHIFT_INDEX < enc.length := by omega
    have hget : enc.get? SHIFT_INDEX = some (enc.getD SHIFT_INDEX ' ') := by
      rw [List.getD_eq_getElem _ _ hlt, List.get?_eq_getElem?, List.getElem?_eq_getElem hlt]
    have hmem : enc.getD SHIFT_INDEX ' ' ∈ enc := by
      rw [List.getD_eq_getElem _ _ hlt]
      exact List.getElem_mem _
    obtain ⟨d, hd⟩ := index_of_isSome_of_mem (hall _ hmem)
    obtain ⟨v1, hv1⟩ := decode_ok_of_mem (enc.take STORE_SIZE) d
      (fun c hc => hall c (List.take_subset _ _ hc))
    obtain ⟨v2, hv2⟩ := decode_ok_of_mem (enc.drop (SHIFT_INDEX + 1)) d
      (fun c hc => hall c (List.drop_subset _ _ hc))
    exact ⟨(v1, v2), by
      simp only [decode_to_store_and_sequence, hget, hd, hv1, hv2]⟩
  · intro hlen hbad
    have hSI : SHIFT_INDEX = 3 := rfl
    have hST : STORE_SIZE = 3 := rfl
    have hlt : SHIFT_INDEX < enc.length := by omega
    have hget : enc.get? SHIFT_INDEX = some (enc.getD SHIFT_INDEX ' ') := by
      rw [List.getD_eq_getElem _ _ hlt, List.get?_eq_getElem?, List.getElem?_eq_getElem hlt]
    by_cases hc3 : enc.getD SHIFT_INDEX ' ' ∈ ALPHABET
    · obtain ⟨d, hd⟩ := index_of_isSome_of_mem hc3
      by_cases htake : ∀ c ∈ enc.take STORE_SIZE, c ∈ ALPHABET
      · obtain ⟨v1, hv1⟩ := decode_ok_of_mem (enc.take STORE_SIZE) d htake
        have hdropbad : ∃ c ∈ enc.drop (SHIFT_INDEX + 1), c ∉ ALPHABET := by
          obtain ⟨c, hcmem, hcn⟩ := hbad
          rw [← List.take_append_drop (SHIFT_INDEX + 1) enc] at hcmem
          rcases List.mem_append.mp hcmem with hcm | hcm
          · rw [List.take_succ] at hcm
            have hget2 : enc[SHIFT_INDEX]? = some (enc.getD SHIFT_INDEX ' ') := by
              rw [← List.get?_eq_getElem?]
              exact hget
            rw [hget2] at hcm
            rcases List.mem_append.mp hcm with hcm2 | hcm2
            · exact absurd (htake c hcm2) hcn
            · have heq : c = enc.getD SHIFT_INDEX ' ' := by simpa using hcm2
              exact absurd (show c ∈ ALPHABET by rw [heq]; exact hc3) hcn
          · exact ⟨c, hcm, hcn⟩
        have herr := decode_valueError_of_bad (enc.drop (SHIFT_INDEX + 1)) d hdropbad
        simp only [decode_to_store_and_sequence, hget, hd, hv1, herr]
      · push_neg at htake
        have herr := decode_valueError_of_bad (enc.take STORE_SIZE) d
          (by obtain ⟨c, hcm, hcn⟩ := htake; exact ⟨c, hcm, hcn⟩)
        simp only [decode_to_store_and_sequence, hget, hd, herr]
    · have hd : index_of (enc.getD SHIFT_INDEX ' ') ALPHABET = none :=
        (index_of_eq_none_iff _ _).mpr hc3
      simp only [decode_to_store_and_sequence, hget, hd]

theorem C2_witness :
    ("BB".toList).length < SHIFT_INDEX + 1 ∧
      decode_to_store_and_sequence ("BB".toList) = Except.error PyErr.indexError :=
  ⟨by decide, (C2_decode_malformed ("BB".toList)).1 (by decide)⟩

/-- C10: For every integer `num_to_wrap` and every `mod_by > 0`,
`wrap_to_positive` terminates — the total model satisfies the `while`
loop's defining equation (first conjunct), certifying that the loop is
well-founded — and returns the unique non-negative residue in
`[0, mod_by)` congruent to `num_to_wrap` modulo `mod_by`. -/
theorem C10_wrap_to_positive (num_to_wrap mod_by : Int) (h : 0 < mod_by) :
    (wrapLoop num_to_wrap mod_by
        = if num_to_wrap < 0 then wrapLoop (num_to_wrap + mod_by) mod_by else num_to_wrap) ∧
    0 ≤ wrap_to_positive num_to_wrap mod_by ∧
    wrap_to_positive num_to_wrap mod_by < mod_by ∧
    mod_by ∣ (num_to_wrap - wrap_to_positive num_to_wrap mod_by) ∧
    ∀ r : Int, 0 ≤ r → r < mod_by → mod_by ∣ (num_to_wrap - r) →
      r = wrap_to_positive num_to_wrap mod_by := by
  rw [wrap_to_positive_eq_emod]
  refine ⟨wrapLoop_step num_to_wrap mod_by h, Int.emod_nonneg _ h.ne',
    Int.emod_lt_of_pos _ h, Int.dvd_sub_of_emod_eq rfl, ?_⟩
  intro r h0 hr hdvd
  have h1 : r % mod_by = num_to_wrap % mod_by := Int.modEq_iff_dvd.mpr hdvd
  rw [← h1, Int.emod_eq_of_lt h0 hr]

theorem C10_witness :
    (0 : Int) < 23 ∧ 0 ≤ wrap_to_positive (-50) 23 ∧ wrap_to_positive (-50) 23 < 23 ∧
      (23 : Int) ∣ (-50 - wrap_to_positive (-50) 23) :=
  ⟨by decide,
    (C10_wrap_to_positive (-50) 23 (by decide)).2.1,
    (C10_wrap_to_positive (-50) 23 (by decide)).2.2.1,
    (C10_wrap_to_positive (-50) 23 (by decide)).2.2.2.1⟩

end Revcode
